import Mathlib

/-!
# Verification of the helix node-selector and sticky-context engine

Shallow embedding of `helix-core/src/object.rs` and
`helix-term/src/ui/context.rs` (the canonical sticky-context path, per the
design notes), together with proofs of the specified properties.

The text buffer is modelled as the list of byte widths of its characters
(`widths`), which induces the external Text Index conversions
`char_to_byte` / `byte_to_char`.  The external tree-sitter tree is modelled
as a rose tree of nodes carrying byte extents; a node handle is the node
together with its ancestor stack, mirroring the transient `Node` handles of
the source.
-/

namespace Helix

/-! ## Text index (external collaborator): char/byte conversions -/

/-- `char_to_byte`: byte offset of the character at index `c`, for a text
whose characters have byte widths `ws`. -/
def charToByte (ws : List Nat) (c : Nat) : Nat :=
  (ws.take c).sum

/-- `byte_to_char`: index of the character containing byte `b`. -/
def byteToChar : List Nat → Nat → Nat
  | [], _ => 0
  | w :: ws, b => if b < w then 0 else 1 + byteToChar ws (b - w)

theorem charToByte_mono (ws : List Nat) {c d : Nat} (h : c ≤ d) :
    charToByte ws c ≤ charToByte ws d := by
  induction ws generalizing c d with
  | nil => simp [charToByte]
  | cons w ws ih =>
    cases c with
    | zero => simp [charToByte]
    | succ c =>
      cases d with
      | zero => omega
      | succ d =>
        simp only [charToByte, List.take_succ_cons, List.sum_cons]
        have := @ih c d (by omega)
        simp only [charToByte] at this
        omega

theorem byteToChar_mono (ws : List Nat) {b b' : Nat} (h : b ≤ b') :
    byteToChar ws b ≤ byteToChar ws b' := by
  induction ws generalizing b b' with
  | nil => simp [byteToChar]
  | cons w ws ih =>
    simp only [byteToChar]
    by_cases h1 : b < w
    · simp [h1]
    · have h2 : ¬ b' < w := by omega
      simp only [h1, h2, if_false]
      have := @ih (b - w) (b' - w) (by omega)
      omega

theorem byteToChar_le_length (ws : List Nat) (b : Nat) :
    byteToChar ws b ≤ ws.length := by
  induction ws generalizing b with
  | nil => simp [byteToChar]
  | cons w ws ih =>
    simp only [byteToChar, List.length_cons]
    by_cases h1 : b < w
    · simp [h1]
    · simp only [h1, if_false]
      have := @ih (b - w)
      omega

theorem byteToChar_charToByte (ws : List Nat) (c : Nat)
    (hpos : ∀ w ∈ ws, 0 < w) (hc : c ≤ ws.length) :
    byteToChar ws (charToByte ws c) = c := by
  induction ws generalizing c with
  | nil =>
    simp at hc
    simp [hc, byteToChar, charToByte]
  | cons w ws ih =>
    cases c with
    | zero =>
      have hw : 0 < w := hpos w (by simp)
      simp [byteToChar, charToByte, hw]
    | succ c =>
      have hw : 0 < w := hpos w (by simp)
      simp only [charToByte, List.take_succ_cons, List.sum_cons, byteToChar]
      have hnl : ¬ (w + (ws.take c).sum < w) := by omega
      simp only [hnl, if_false]
      have heq : w + (ws.take c).sum - w = (ws.take c).sum := by omega
      rw [heq]
      have := ih c (fun x hx => hpos x (by simp [hx])) (by simpa using hc)
      simp only [charToByte] at this
      omega

/-! ## Range and Selection (helix-core value types)

`Range::new(anchor, head)` stores the two offsets verbatim;
`from = min anchor head`, `to = max anchor head`. -/

structure Range where
  anchor : Nat
  head : Nat
deriving Repr, DecidableEq

/-- `Range::from()` -/
def Range.rfrom (r : Range) : Nat := min r.anchor r.head

/-- `Range::to()` -/
def Range.rto (r : Range) : Nat := max r.anchor r.head

/-- `Range::direction() == Direction::Backward` -/
def Range.isBackward (r : Range) : Bool := r.head < r.anchor

structure Selection where
  ranges : List Range
  primary_index : Nat
deriving Repr, DecidableEq

/-- Modelled from the spec: `Selection::transform` (helix-core
`selection.rs`, not under `src/`) maps each range independently to a new
range, keeping the primary index. -/
def Selection.transform (s : Selection) (f : Range → Range) : Selection :=
  { ranges := s.ranges.map f, primary_index := s.primary_index }

/-- Modelled from the spec: `Selection::transform_iter` (helix-core
`selection.rs`, not under `src/`) replaces every range independently by a
sub-sequence, concatenated in original range order; the primary index is
remapped to the first output of the original primary range. -/
def Selection.transformIter (s : Selection) (f : Range → List Range) : Selection :=
  { ranges := s.ranges.flatMap f
    primary_index := (((s.ranges.take s.primary_index).map (fun r => (f r).length)).sum) }

/-! ## The syntax tree (external collaborator, tree-sitter) -/

structure NodeInfo where
  sb : Nat        -- start_byte
  eb : Nat        -- end_byte
  named : Bool
deriving Repr, DecidableEq

inductive STree where
  | mk : NodeInfo → List STree → STree
deriving Repr

def STree.info : STree → NodeInfo
  | .mk i _ => i

def STree.children : STree → List STree
  | .mk _ cs => cs

/-- `Node::child_count()` (all children, named or not). -/
def STree.childCount (t : STree) : Nat := t.children.length

/-- `Node::named_children(..)` as a list. -/
def STree.namedChildrenList (t : STree) : List STree :=
  t.children.filter (fun c => c.info.named)

/-- `[start_byte, end_byte]` of `t` covers the byte range `[f, to]`. -/
def coversN (t : STree) (f tob : Nat) : Bool :=
  decide (t.info.sb ≤ f) && decide (tob ≤ t.info.eb)

/-- A transient node handle: the node and its ancestor stack
(innermost parent first, root last). -/
structure NodeRef where
  node : STree
  anc : List STree
deriving Repr

/-- `Node::parent()` -/
def NodeRef.parent : NodeRef → Option NodeRef
  | ⟨_, []⟩ => none
  | ⟨_, a :: rest⟩ => some ⟨a, rest⟩

mutual
/-- Descend from a covering node to the smallest descendant covering
`[f, tob]` (the body of `descendant_for_byte_range`), building the
ancestor stack on the way down. -/
def descendT : STree → Nat → Nat → NodeRef
  | .mk i cs, f, tob =>
    match descendF (.mk i cs) f tob cs with
    | some r => r
    | none => ⟨.mk i cs, []⟩
/-- Scan the children of `p` for the first one covering `[f, tob]` and
descend into it. -/
def descendF : STree → Nat → Nat → List STree → Option NodeRef
  | _, _, _, [] => none
  | p, f, tob, c :: rest =>
    if coversN c f tob then
      let r := descendT c f tob
      some ⟨r.node, r.anc ++ [p]⟩
    else descendF p f tob rest
end

/-- `Node::descendant_for_byte_range(f, tob)` called on the root. -/
def descendantForByteRange (root : STree) (f tob : Nat) : Option NodeRef :=
  if coversN root f tob then some (descendT root f tob) else none

mutual
/-- Well-formedness of a tree-sitter tree: every node has `sb ≤ eb` and
every child's byte extent lies within its parent's. -/
def treeWF : STree → Bool
  | .mk i cs => decide (i.sb ≤ i.eb) && forestWF i.sb i.eb cs
def forestWF : Nat → Nat → List STree → Bool
  | _, _, [] => true
  | lo, hi, c :: cs =>
    decide (lo ≤ c.info.sb) && decide (c.info.eb ≤ hi) && treeWF c && forestWF lo hi cs
end

/-! ## Node selector (`helix-core/src/object.rs`) -/

/-- The per-range body of `select_node_impl`: find the covering descendant,
apply `select_fn`, and map the found node's byte span back to a char range
preserving the original direction; on `None`, the range is unchanged. -/
def selectNodeRange (root : STree) (ws : List Nat)
    (selectFn : NodeRef → Nat → Nat → Option NodeRef) (r : Range) : Range :=
  let f := charToByte ws r.rfrom
  let t := charToByte ws r.rto
  match (descendantForByteRange root f t).bind (fun nr => selectFn nr f t) with
  | none => r
  | some nr =>
    let f2 := byteToChar ws nr.node.info.sb
    let t2 := byteToChar ws nr.node.info.eb
    if r.head < r.anchor then ⟨t2, f2⟩ else ⟨f2, t2⟩

def select_node_impl (root : STree) (ws : List Nat)
    (sel : Selection) (selectFn : NodeRef → Nat → Nat → Option NodeRef) : Selection :=
  sel.transform (selectNodeRange root ws selectFn)

/-- The `select_fn` closure of `expand_selection`: climb to the parent while
the node's byte span equals `[f, tob]` exactly. -/
def expandFn : STree → List STree → Nat → Nat → Option NodeRef
  | n, anc, f, tob =>
    if n.info.sb = f ∧ n.info.eb = tob then
      match anc with
      | [] => none
      | a :: rest => expandFn a rest f tob
    else
      some ⟨n, anc⟩

def expandRange (root : STree) (ws : List Nat) (r : Range) : Range :=
  selectNodeRange root ws (fun nr f tob => expandFn nr.node nr.anc f tob) r

def expand_selection (root : STree) (ws : List Nat) (sel : Selection) : Selection :=
  select_node_impl root ws sel (fun nr f tob => expandFn nr.node nr.anc f tob)

/-- The `select_fn` closure of `shrink_selection`:
`descendant.child(0).or(Some(descendant))`. -/
def shrinkFn (nr : NodeRef) : Option NodeRef :=
  match nr.node.children with
  | [] => some nr
  | c :: _ => some ⟨c, nr.node :: nr.anc⟩

def shrinkRange (root : STree) (ws : List Nat) (r : Range) : Range :=
  selectNodeRange root ws (fun nr _ _ => shrinkFn nr) r

def shrink_selection (root : STree) (ws : List Nat) (sel : Selection) : Selection :=
  select_node_impl root ws sel (fun nr _ _ => shrinkFn nr)

/-- `find_sibling_recursive`: try `sibling_fn` on the node, then on its
ancestors, returning the first sibling found. -/
def findSiblingRecursive (sibFn : NodeRef → Option NodeRef) :
    STree → List STree → Option NodeRef
  | n, [] => sibFn ⟨n, []⟩
  | n, a :: rest =>
    match sibFn ⟨n, a :: rest⟩ with
    | some s => some s
    | none => findSiblingRecursive sibFn a rest

def selectSiblingRange (root : STree) (ws : List Nat)
    (sibFn : NodeRef → Option NodeRef) (r : Range) : Range :=
  selectNodeRange root ws (fun nr _ _ => findSiblingRecursive sibFn nr.node nr.anc) r

def select_sibling (root : STree) (ws : List Nat) (sel : Selection)
    (sibFn : NodeRef → Option NodeRef) : Selection :=
  select_node_impl root ws sel (fun nr _ _ => findSiblingRecursive sibFn nr.node nr.anc)

/-- `find_parent_with_more_children`: first ancestor with more than one
child (any children, named or not), over the ancestor stack. -/
def findParentWithMoreChildren : List STree → Option NodeRef
  | [] => none
  | a :: rest =>
    if a.childCount > 1 then some ⟨a, rest⟩ else findParentWithMoreChildren rest

/-- `select_children`: one range per named child, inheriting the input
range's direction; `None` when there are no named children. -/
def selectChildren (node : STree) (ws : List Nat) (backward : Bool) :
    Option (List Range) :=
  let children := node.namedChildrenList.map (fun c =>
    let f := byteToChar ws c.info.sb
    let t := byteToChar ws c.info.eb
    if backward then (⟨t, f⟩ : Range) else ⟨f, t⟩)
  if children.isEmpty then none else some children

/-- Per-range body of `select_all_siblings`. -/
def selectAllSiblingsRange (root : STree) (ws : List Nat) (r : Range) : List Range :=
  let f := charToByte ws r.rfrom
  let t := charToByte ws r.rto
  (((descendantForByteRange root f t).bind (fun d => findParentWithMoreChildren d.anc)).bind
    (fun p => selectChildren p.node ws r.isBackward)).getD [r]

def select_all_siblings (root : STree) (ws : List Nat) (sel : Selection) : Selection :=
  sel.transformIter (selectAllSiblingsRange root ws)

/-- Per-range body of `select_all_children`. -/
def selectAllChildrenRange (root : STree) (ws : List Nat) (r : Range) : List Range :=
  let f := charToByte ws r.rfrom
  let t := charToByte ws r.rto
  ((descendantForByteRange root f t).bind
    (fun d => selectChildren d.node ws r.isBackward)).getD [r]

def select_all_children (root : STree) (ws : List Nat) (sel : Selection) : Selection :=
  sel.transformIter (selectAllChildrenRange root ws)

/-! ## Sticky context engine (`helix-term/src/ui/context.rs`) -/

structure Position where
  row : Nat
  col : Nat
deriving Repr, DecidableEq

structure StickyNode where
  line : Nat
  visual_line : Nat
  byte_range : Nat × Nat
  indicator : Option String
  anchor : Nat
  has_context_end : Bool
deriving Repr, DecidableEq

/-- `usize::MAX`, the sentinel `line` of the indicator entry. -/
def usizeMax : Nat := 18446744073709551615

/-- A query-captured node: the byte extent and row extent that
`calculate_sticky_nodes` reads off a tree-sitter capture. -/
structure QNode where
  sb : Nat    -- start_byte
  eb : Nat    -- end_byte
  srow : Nat  -- start_position().row
  erow : Nat  -- end_position().row
deriving Repr, DecidableEq

/-- `std::ops::Range::contains` on `sb..eb`. -/
def QNode.containsByte (n : QNode) (b : Nat) : Bool :=
  decide (n.sb ≤ b) && decide (b < n.eb)

/-- One `QueryMatch`: the list of (capture index, node) pairs. -/
structure QMatch where
  capts : List (Nat × QNode)
deriving Repr, DecidableEq

/-- `QueryMatch::nodes_for_capture_index`. -/
def QMatch.nodesForCaptureIndex (m : QMatch) (i : Nat) : List QNode :=
  (m.capts.filter (fun c => c.1 == i)).map (fun c => c.2)

/-- The language's compiled context query, as consumed by the engine:
the two `capture_index_for_name` results and, abstracting the external
tree-sitter query engine, the matches produced for a given
`cursor.set_byte_range(0..lastScanByte)` run. -/
structure CtxQuery where
  captureContext : Option Nat        -- capture_index_for_name("context")
  captureContextParams : Option Nat  -- capture_index_for_name("context.params")
  qmatches : Nat → List QMatch       -- matches over byte range [0, lastScanByte)

/-- The document, as consumed by the engine: tree presence, the external
Text Index conversions, the primary cursor, and the per-language query. -/
structure DocModel where
  hasTree : Bool                 -- doc.syntax().is_some()
  charToByteF : Nat → Nat        -- text.char_to_byte
  charToLineF : Nat → Nat        -- text.char_to_line
  lineToByteF : Nat → Nat        -- text.line_to_byte
  cursorChar : Nat               -- doc.selection(view.id).primary().cursor(text)
  contextQuery : Option CtxQuery -- doc.language_config().and_then(|l| l.context_query())

structure ViewModel where
  anchorOffset : Nat  -- view.offset.anchor (char offset)
  height : Nat        -- view.inner_area(doc).height (u16)
  width : Nat         -- view.inner_area(doc).width (u16)
deriving Repr, DecidableEq

structure StickyConfig where
  followCursor : Bool  -- config.sticky_context.follow_cursor
  maxLines : Nat       -- config.sticky_context.max_lines
  indicator : Bool     -- config.sticky_context.indicator
deriving Repr, DecidableEq

/-- `get_context_paired_range`: among this match's `@context.params`
captures, find one on a different row whose end byte lies inside a
`@context` capture that contains both scan bytes. -/
def get_context_paired_range (m : QMatch) (startIndex endIndex topFirstByte lastScanByte : Nat) :
    Option (Nat × Nat) :=
  let endNodes := m.nodesForCaptureIndex endIndex
  (m.nodesForCaptureIndex startIndex).findSome? (fun context =>
    if context.containsByte topFirstByte && context.containsByte lastScanByte then
      endNodes.findSome? (fun it =>
        if context.srow ≠ it.erow ∧ context.containsByte it.eb then
          some (context.sb, it.eb - 1)
        else none)
    else none)

/-- The `StickyNode` pushed for a qualifying `@context` capture. -/
def stickyOf (node : QNode) (nbr : Option (Nat × Nat)) (viewAnchor : Nat) : StickyNode :=
  { line := node.srow
    visual_line := 0
    byte_range := nbr.getD (node.sb, node.sb)
    indicator := none
    anchor := viewAnchor
    has_context_end := nbr.isSome }

/-- One step of the query loop: skip the capture unless it qualifies (the
`continue` test of the source, which reads the number of results pushed so
far as `acc.length`). -/
def stickyRawPush (anchorLine viewAnchor : Nat) (nbr : Option (Nat × Nat))
    (topFirstByte lastScanByte : Nat) (acc : List StickyNode) (node : QNode) :
    List StickyNode :=
  if (¬ node.containsByte lastScanByte ∨ ¬ node.containsByte topFirstByte)
      ∧ node.srow ≠ anchorLine + acc.length ∧ nbr = none then
    acc
  else
    acc ++ [stickyOf node nbr viewAnchor]

/-- Processing of one `QueryMatch` of the query loop. -/
def stickyRawMatch (anchorLine startIndex endIndex topFirstByte lastScanByte viewAnchor : Nat)
    (acc : List StickyNode) (m : QMatch) : List StickyNode :=
  let nbr := get_context_paired_range m startIndex endIndex topFirstByte lastScanByte
  (m.nodesForCaptureIndex startIndex).foldl
    (stickyRawPush anchorLine viewAnchor nbr topFirstByte lastScanByte) acc

/-- The query loop of the full recompute: fold over all matches, pushing a
`StickyNode` for every `@context` capture that is not skipped by the
qualification test. -/
def stickyRaw (anchorLine startIndex endIndex topFirstByte lastScanByte viewAnchor : Nat)
    (ms : List QMatch) : List StickyNode :=
  ms.foldl (stickyRawMatch anchorLine startIndex endIndex topFirstByte lastScanByte viewAnchor) []

/-- `result.sort_unstable_by(|l, r| l.line.cmp(&r.line))`, realized as an
insertion sort by `line`. -/
def insertByLine (n : StickyNode) : List StickyNode → List StickyNode
  | [] => [n]
  | m :: rest => if n.line ≤ m.line then n :: m :: rest else m :: insertByLine n rest

def sortByLine : List StickyNode → List StickyNode
  | [] => []
  | n :: rest => insertByLine n (sortByLine rest)

/-- `result.dedup_by(|lhs, rhs| lhs.line == rhs.line)`: drop consecutive
entries with equal `line`, keeping the first of each run. -/
def dedupByLineAux (last : StickyNode) : List StickyNode → List StickyNode
  | [] => []
  | b :: rest =>
    if last.line = b.line then dedupByLineAux last rest
    else b :: dedupByLineAux b rest

def dedupByLine : List StickyNode → List StickyNode
  | [] => []
  | a :: rest => a :: dedupByLineAux a rest

/-- The cap step: `skip = len - min(max_lines as u16, height / 3)` entries
are dropped from the front. -/
def stickyCap (sorted : List StickyNode) (maxLines height : Nat) : List StickyNode :=
  let maxNodesAmount := min (maxLines % 65536) (height / 3)
  sorted.drop (sorted.length - maxNodesAmount)

/-- The `.enumerate().take_while(..).map(..)` chain: keep entries while
`i + (indicator as usize) != visual_cursor_row`, assigning
`visual_line = i as u16`; `i` is the running index. -/
def stickyCursorTruncate (indicator : Bool) (visualCursorRow : Nat) :
    Nat → List StickyNode → List StickyNode
  | _, [] => []
  | i, n :: rest =>
    if i + (if indicator then 1 else 0) = visualCursorRow then []
    else { n with visual_line := i % 65536 } :: stickyCursorTruncate indicator visualCursorRow (i + 1) rest

/-- The trailing indicator entry: a full-width separator with sentinel
`line = usize::MAX`. -/
def stickyWithIndicator (res : List StickyNode) (indicator : Bool) (width viewAnchor : Nat) :
    List StickyNode :=
  if indicator then
    res ++ [{ line := usizeMax
              visual_line := res.length % 65536
              byte_range := (0, 0)
              indicator := some (String.mk (List.replicate width '─'))
              anchor := viewAnchor
              has_context_end := false }]
  else res

/-- The fast-path test: some previous entry stores the current
top-of-viewport offset. -/
def fastPathHit (nodes : Option (List StickyNode)) (view : ViewModel) : Bool :=
  match nodes with
  | some ns => ns.any (fun n => view.anchorOffset == n.anchor)
  | none => false

/-- `anchor_line`: the line of the top-of-viewport offset. -/
def stickyAnchorLine (doc : DocModel) (view : ViewModel) : Nat :=
  doc.charToLineF view.anchorOffset

/-- `top_first_byte`: first content line below the previously pinned lines. -/
def stickyTopFirstByte (nodes : Option (List StickyNode)) (doc : DocModel)
    (view : ViewModel) : Nat :=
  doc.lineToByteF (stickyAnchorLine doc view + ((nodes.map List.length).getD 0))

/-- `last_scan_byte`: cursor byte when following the cursor, else
`top_first_byte`. -/
def stickyLastScanByte (nodes : Option (List StickyNode)) (doc : DocModel)
    (view : ViewModel) (config : StickyConfig) : Nat :=
  if config.followCursor then doc.charToByteF doc.cursorChar
  else stickyTopFirstByte nodes doc view

/-- The full-recompute pipeline after the raw query loop: sort, dedup, cap,
truncate at the cursor row, and append the optional indicator entry. -/
def stickyAssemble (result : List StickyNode) (view : ViewModel) (config : StickyConfig)
    (visualCursorRow : Nat) : List StickyNode :=
  let sorted := dedupByLine (sortByLine result)
  let capped := stickyCap sorted config.maxLines view.height
  let truncated := stickyCursorTruncate config.indicator visualCursorRow 0 capped
  stickyWithIndicator truncated config.indicator view.width view.anchorOffset

/-- The full-recompute path of `calculate_sticky_nodes`: resolve the
language query and the "context" capture, run the query loop over the
matches, and assemble the result; `None` when a capability is missing or
the raw result is empty. -/
def stickyFullRecompute (nodes : Option (List StickyNode)) (doc : DocModel)
    (view : ViewModel) (config : StickyConfig) (visualCursorRow : Nat) :
    Option (List StickyNode) :=
  match doc.contextQuery with
  | none => none
  | some cq =>
    match cq.captureContext with
    | none => none
    | some startIndex =>
      let endIndex := cq.captureContextParams.getD startIndex
      let lastScanByte := stickyLastScanByte nodes doc view config
      let result := stickyRaw (stickyAnchorLine doc view) startIndex endIndex
        (stickyTopFirstByte nodes doc view) lastScanByte view.anchorOffset
        (cq.qmatches lastScanByte)
      if result.isEmpty then none
      else some (stickyAssemble result view config visualCursorRow)

/-- `calculate_sticky_nodes` (`helix-term/src/ui/context.rs`). -/
def calculate_sticky_nodes (nodes : Option (List StickyNode)) (doc : DocModel)
    (view : ViewModel) (config : StickyConfig)
    (cursorCache : Option (Option Position)) : Option (List StickyNode) :=
  match cursorCache with
  | none => none
  | some none => none
  | some (some pos) =>
    if doc.hasTree = false then none
    else
      let visualCursorRow := pos.row
      if visualCursorRow = 0 then none
      else
        if fastPathHit nodes view then
          some ((nodes.getD []).take visualCursorRow)
        else
          stickyFullRecompute nodes doc view config visualCursorRow

/-! ## Lemmas about the sticky pipeline stages -/

theorem mem_insertByLine {x n : StickyNode} {l : List StickyNode} :
    x ∈ insertByLine n l ↔ x = n ∨ x ∈ l := by
  induction l with
  | nil => simp [insertByLine]
  | cons m rest ih =>
    simp only [insertByLine]
    by_cases h : n.line ≤ m.line
    · simp only [if_pos h, List.mem_cons]
    · simp only [if_neg h, List.mem_cons, ih]
      tauto

theorem mem_sortByLine {x : StickyNode} {l : List StickyNode} :
    x ∈ sortByLine l ↔ x ∈ l := by
  induction l with
  | nil => simp [sortByLine]
  | cons n rest ih => simp [sortByLine, mem_insertByLine, ih]

theorem pairwise_insertByLine {n : StickyNode} {l : List StickyNode}
    (h : l.Pairwise (fun a b => a.line ≤ b.line)) :
    (insertByLine n l).Pairwise (fun a b => a.line ≤ b.line) := by
  induction l with
  | nil => simp [insertByLine]
  | cons m rest ih =>
    simp only [insertByLine]
    by_cases hle : n.line ≤ m.line
    · rw [if_pos hle, List.pairwise_cons]
      refine ⟨?_, h⟩
      intro b hb
      rcases List.mem_cons.mp hb with rfl | hb
      · exact hle
      · have := (List.pairwise_cons.mp h).1 b hb
        omega
    · rw [if_neg hle, List.pairwise_cons]
      rw [List.pairwise_cons] at h
      refine ⟨?_, ih h.2⟩
      intro b hb
      rcases mem_insertByLine.mp hb with rfl | hb
      · omega
      · exact h.1 b hb

theorem pairwise_sortByLine (l : List StickyNode) :
    (sortByLine l).Pairwise (fun a b => a.line ≤ b.line) := by
  induction l with
  | nil => simp [sortByLine]
  | cons n rest ih => exact pairwise_insertByLine ih

theorem mem_dedupByLineAux : ∀ (l : List StickyNode) (last x : StickyNode),
    x ∈ dedupByLineAux last l → x ∈ l := by
  intro l
  induction l with
  | nil => intro last x h; simp [dedupByLineAux] at h
  | cons b rest ih =>
    intro last x h
    rw [dedupByLineAux] at h
    by_cases heq : last.line = b.line
    · rw [if_pos heq] at h
      exact List.mem_cons_of_mem b (ih last x h)
    · rw [if_neg heq] at h
      rcases List.mem_cons.mp h with rfl | h
      · simp
      · exact List.mem_cons_of_mem b (ih b x h)

theorem mem_dedupByLine {x : StickyNode} {l : List StickyNode}
    (h : x ∈ dedupByLine l) : x ∈ l := by
  cases l with
  | nil => simpa [dedupByLine] using h
  | cons a rest =>
    rw [dedupByLine] at h
    rcases List.mem_cons.mp h with rfl | h
    · simp
    · exact List.mem_cons_of_mem a (mem_dedupByLineAux rest a x h)

theorem pairwise_dedupByLineAux : ∀ (l : List StickyNode) (last : StickyNode),
    l.Pairwise (fun a b => a.line ≤ b.line) → (∀ y ∈ l, last.line ≤ y.line) →
    (∀ z ∈ dedupByLineAux last l, last.line < z.line) ∧
    (dedupByLineAux last l).Pairwise (fun a b => a.line < b.line) := by
  intro l
  induction l with
  | nil => intro last _ _; simp [dedupByLineAux]
  | cons b rest ih =>
    intro last hsort hge
    rw [List.pairwise_cons] at hsort
    rw [dedupByLineAux]
    by_cases heq : last.line = b.line
    · rw [if_pos heq]
      refine ih last hsort.2 ?_
      intro y hy
      have := hsort.1 y hy
      omega
    · rw [if_neg heq]
      have hlb : last.line < b.line := by
        have := hge b (by simp)
        omega
      obtain ⟨hall, hpair⟩ := ih b hsort.2 hsort.1
      refine ⟨?_, ?_⟩
      · intro z hz
        rcases List.mem_cons.mp hz with rfl | hz
        · exact hlb
        · have := hall z hz
          omega
      · rw [List.pairwise_cons]
        exact ⟨hall, hpair⟩

theorem pairwise_dedupByLine {l : List StickyNode}
    (h : l.Pairwise (fun a b => a.line ≤ b.line)) :
    (dedupByLine l).Pairwise (fun a b => a.line < b.line) := by
  cases l with
  | nil => simp [dedupByLine]
  | cons a rest =>
    rw [List.pairwise_cons] at h
    rw [dedupByLine, List.pairwise_cons]
    obtain ⟨hall, hpair⟩ := pairwise_dedupByLineAux rest a h.2 h.1
    exact ⟨hall, hpair⟩

theorem stickyRawPush_indicator_none {aL vA : Nat} {nbr : Option (Nat × Nat)}
    {tf ls : Nat} {acc : List StickyNode} (h : ∀ x ∈ acc, x.indicator = none)
    (node : QNode) :
    ∀ x ∈ stickyRawPush aL vA nbr tf ls acc node, x.indicator = none := by
  intro x hx
  rw [stickyRawPush] at hx
  split at hx
  · exact h x hx
  · rcases List.mem_append.mp hx with hx | hx
    · exact h x hx
    · simp at hx
      subst hx
      rfl

theorem foldl_stickyRawPush_indicator_none {aL vA : Nat} {nbr : Option (Nat × Nat)}
    {tf ls : Nat} : ∀ (ns : List QNode) (acc : List StickyNode),
    (∀ x ∈ acc, x.indicator = none) →
    ∀ x ∈ ns.foldl (stickyRawPush aL vA nbr tf ls) acc, x.indicator = none := by
  intro ns
  induction ns with
  | nil => intro acc h; simpa using h
  | cons n rest ih =>
    intro acc h
    simp only [List.foldl_cons]
    exact ih _ (stickyRawPush_indicator_none h n)

theorem stickyRaw_indicator_none (aL si ei tf ls vA : Nat) (ms : List QMatch) :
    ∀ x ∈ stickyRaw aL si ei tf ls vA ms, x.indicator = none := by
  rw [stickyRaw]
  have main : ∀ (ms' : List QMatch) (acc : List StickyNode),
      (∀ x ∈ acc, x.indicator = none) →
      ∀ x ∈ ms'.foldl (stickyRawMatch aL si ei tf ls vA) acc, x.indicator = none := by
    intro ms'
    induction ms' with
    | nil => intro acc h; simpa using h
    | cons m rest ih =>
      intro acc h
      simp only [List.foldl_cons]
      exact ih _ (foldl_stickyRawPush_indicator_none _ acc h)
  exact main ms [] (by simp)

theorem stickyCursorTruncate_mem {ind : Bool} {row : Nat} :
    ∀ {i : Nat} {l : List StickyNode} {x : StickyNode},
    x ∈ stickyCursorTruncate ind row i l →
    ∃ y ∈ l, x.line = y.line ∧ x.indicator = y.indicator := by
  intro i l
  induction l generalizing i with
  | nil => intro x hx; simp [stickyCursorTruncate] at hx
  | cons n rest ih =>
    intro x hx
    rw [stickyCursorTruncate] at hx
    by_cases hc : i + (if ind then 1 else 0) = row
    · rw [if_pos hc] at hx
      simp at hx
    · rw [if_neg hc] at hx
      rcases List.mem_cons.mp hx with rfl | hx
      · exact ⟨n, by simp, rfl, rfl⟩
      · obtain ⟨y, hy, h1, h2⟩ := ih hx
        exact ⟨y, by simp [hy], h1, h2⟩

theorem stickyCursorTruncate_pairwise {ind : Bool} {row : Nat} :
    ∀ {i : Nat} {l : List StickyNode},
    l.Pairwise (fun a b => a.line < b.line) →
    (stickyCursorTruncate ind row i l).Pairwise (fun a b => a.line < b.line) := by
  intro i l
  induction l generalizing i with
  | nil => intro _; simp [stickyCursorTruncate]
  | cons n rest ih =>
    intro h
    rw [List.pairwise_cons] at h
    rw [stickyCursorTruncate]
    by_cases hc : i + (if ind then 1 else 0) = row
    · rw [if_pos hc]
      simp
    · rw [if_neg hc, List.pairwise_cons]
      refine ⟨?_, ih h.2⟩
      intro b hb
      obtain ⟨y, hy, h1, _⟩ := stickyCursorTruncate_mem hb
      have := h.1 y hy
      simpa [h1] using this

theorem stickyCursorTruncate_length {ind : Bool} {row : Nat} :
    ∀ (i : Nat) (l : List StickyNode),
    (stickyCursorTruncate ind row i l).length ≤ l.length := by
  intro i l
  induction l generalizing i with
  | nil => simp [stickyCursorTruncate]
  | cons n rest ih =>
    rw [stickyCursorTruncate]
    by_cases hc : i + (if ind then 1 else 0) = row
    · rw [if_pos hc]
      simp
    · rw [if_neg hc]
      simpa using ih (i + 1)

theorem stickyCursorTruncate_get_visual {ind : Bool} {row : Nat} :
    ∀ (i : Nat) (l : List StickyNode) (j : Nat) (x : StickyNode),
    (stickyCursorTruncate ind row i l)[j]? = some x →
    x.visual_line = (i + j) % 65536 := by
  intro i l
  induction l generalizing i with
  | nil => intro j x hx; simp [stickyCursorTruncate] at hx
  | cons n rest ih =>
    intro j x hx
    rw [stickyCursorTruncate] at hx
    by_cases hc : i + (if ind then 1 else 0) = row
    · rw [if_pos hc] at hx
      simp at hx
    · rw [if_neg hc] at hx
      cases j with
      | zero =>
        simp at hx
        rw [← hx]
        simp
      | succ j =>
        simp only [List.getElem?_cons_succ] at hx
        have := ih (i + 1) j x hx
        rw [this]
        congr 1
        omega

theorem stickyCap_length (s : List StickyNode) (m h : Nat) :
    (stickyCap s m h).length = s.length - (s.length - min (m % 65536) (h / 3)) := by
  simp [stickyCap]

theorem stickyCap_sublist (s : List StickyNode) (m h : Nat) :
    (stickyCap s m h).Sublist s := by
  simp only [stickyCap]
  exact List.drop_sublist _ _

/-- The list invariant of the sticky engine: strictly increasing
`source_line` over the non-indicator entries, `visual_line` equal to the
0-based list position for non-indicator entries, and indicator entries only
in trailing position. -/
def StickyInvariant (l : List StickyNode) : Prop :=
  (l.filter (fun n => n.indicator.isNone)).Pairwise (fun a b => a.line < b.line) ∧
  (∀ (i : Nat) (x : StickyNode), l[i]? = some x → x.indicator = none → x.visual_line = i) ∧
  (∀ (i : Nat) (x : StickyNode), l[i]? = some x → x.indicator ≠ none → i = l.length - 1)

theorem stickyInvariant_take (ns : List StickyNode) (k : Nat)
    (h : StickyInvariant ns) : StickyInvariant (ns.take k) := by
  obtain ⟨h1, h2, h3⟩ := h
  refine ⟨?_, ?_, ?_⟩
  · exact h1.sublist ((List.take_sublist k ns).filter _)
  · intro i x hx hnone
    have hi : i < (ns.take k).length := by
      by_contra hge
      rw [List.getElem?_eq_none (by omega)] at hx
      exact Option.noConfusion hx
    rw [List.length_take] at hi
    rw [List.getElem?_take, if_pos (by omega)] at hx
    exact h2 i x hx hnone
  · intro i x hx hsome
    have hi : i < (ns.take k).length := by
      by_contra hge
      rw [List.getElem?_eq_none (by omega)] at hx
      exact Option.noConfusion hx
    rw [List.length_take] at hi ⊢
    rw [List.getElem?_take, if_pos (by omega)] at hx
    have := h3 i x hx hsome
    omega

theorem stickyAssemble_invariant (result : List StickyNode) (view : ViewModel)
    (config : StickyConfig) (row : Nat)
    (hnone : ∀ x ∈ result, x.indicator = none) :
    StickyInvariant (stickyAssemble result view config row) := by
  rw [stickyAssemble]
  set s := dedupByLine (sortByLine result) with hs
  have hs_pair : s.Pairwise (fun a b => a.line < b.line) :=
    pairwise_dedupByLine (pairwise_sortByLine result)
  have hs_none : ∀ x ∈ s, x.indicator = none := by
    intro x hx
    exact hnone x (mem_sortByLine.mp (mem_dedupByLine hx))
  set capped := stickyCap s config.maxLines view.height with hcap
  have hcap_pair : capped.Pairwise (fun a b => a.line < b.line) :=
    hs_pair.sublist (stickyCap_sublist s _ _)
  have hcap_none : ∀ x ∈ capped, x.indicator = none := by
    intro x hx
    exact hs_none x ((stickyCap_sublist s _ _).mem hx)
  have hcap_len : capped.length ≤ min (config.maxLines % 65536) (view.height / 3) := by
    rw [hcap, stickyCap_length]
    omega
  set truncated := stickyCursorTruncate config.indicator row 0 capped with htr
  have htr_pair : truncated.Pairwise (fun a b => a.line < b.line) :=
    stickyCursorTruncate_pairwise hcap_pair
  have htr_none : ∀ x ∈ truncated, x.indicator = none := by
    intro x hx
    obtain ⟨y, hy, _, h2⟩ := stickyCursorTruncate_mem hx
    rw [h2]
    exact hcap_none y hy
  have htr_len : truncated.length ≤ min (config.maxLines % 65536) (view.height / 3) :=
    le_trans (stickyCursorTruncate_length 0 capped) hcap_len
  have htr_small : truncated.length < 65536 := by
    have : config.maxLines % 65536 < 65536 := Nat.mod_lt _ (by omega)
    omega
  have htr_visual : ∀ (i : Nat) (x : StickyNode), truncated[i]? = some x → x.visual_line = i := by
    intro i x hx
    have hi : i < truncated.length := by
      by_contra hge
      rw [List.getElem?_eq_none (by omega)] at hx
      exact Option.noConfusion hx
    have := stickyCursorTruncate_get_visual 0 capped i x (by rw [← htr]; exact hx)
    rw [this, Nat.zero_add, Nat.mod_eq_of_lt (by omega)]
  have hfilter_tr : truncated.filter (fun n => n.indicator.isNone) = truncated :=
    List.filter_eq_self.mpr (fun x hx => by simp [htr_none x hx])
  rw [stickyWithIndicator]
  by_cases hind : config.indicator
  · rw [if_pos hind]
    refine ⟨?_, ?_, ?_⟩
    · rw [List.filter_append, hfilter_tr]
      simp only [List.filter_cons, List.filter_nil]
      simp only [Option.isNone_some, Bool.false_eq_true, if_false]
      simpa using htr_pair
    · intro i x hx hxnone
      by_cases hi : i < truncated.length
      · rw [List.getElem?_append, if_pos hi] at hx
        exact htr_visual i x hx
      · have hlen : i < truncated.length + 1 := by
          by_contra hge
          rw [List.getElem?_eq_none (by simp; omega)] at hx
          exact Option.noConfusion hx
        have hieq : i = truncated.length := by omega
        rw [List.getElem?_append_right (by omega), hieq] at hx
        simp at hx
        rw [← hx] at hxnone
        simp at hxnone
    · intro i x hx hxsome
      by_cases hi : i < truncated.length
      · rw [List.getElem?_append, if_pos hi] at hx
        have : x ∈ truncated := List.getElem?_mem hx
        exact absurd (htr_none x this) hxsome
      · have hlen : i < truncated.length + 1 := by
          by_contra hge
          rw [List.getElem?_eq_none (by simp; omega)] at hx
          exact Option.noConfusion hx
        simp only [List.length_append, List.length_cons, List.length_nil]
        omega
  · rw [if_neg hind]
    refine ⟨?_, ?_, ?_⟩
    · rw [hfilter_tr]
      exact htr_pair
    · intro i x hx _
      exact htr_visual i x hx
    · intro i x hx hxsome
      have : x ∈ truncated := List.getElem?_mem hx
      exact absurd (htr_none x this) hxsome

/-! ## Claim theorems: sticky context engine -/

theorem stickyAssemble_filter_length (result : List StickyNode) (view : ViewModel)
    (config : StickyConfig) (row : Nat)
    (hnone : ∀ x ∈ result, x.indicator = none) :
    ((stickyAssemble result view config row).filter (fun n => n.indicator.isNone)).length ≤
      min (config.maxLines % 65536) (view.height / 3) := by
  rw [stickyAssemble]
  set s := dedupByLine (sortByLine result) with hs
  set capped := stickyCap s config.maxLines view.height with hcap
  have hcap_len : capped.length ≤ min (config.maxLines % 65536) (view.height / 3) := by
    rw [hcap, stickyCap_length]
    omega
  set truncated := stickyCursorTruncate config.indicator row 0 capped with htr
  have htr_none : ∀ x ∈ truncated, x.indicator = none := by
    intro x hx
    obtain ⟨y, hy, _, h2⟩ := stickyCursorTruncate_mem hx
    rw [h2]
    exact hnone y (mem_sortByLine.mp (mem_dedupByLine ((stickyCap_sublist s _ _).mem hy)))
  have htr_len : truncated.length ≤ min (config.maxLines % 65536) (view.height / 3) :=
    le_trans (stickyCursorTruncate_length 0 capped) hcap_len
  have hfilter_tr : truncated.filter (fun n => n.indicator.isNone) = truncated :=
    List.filter_eq_self.mpr (fun x hx => by simp [htr_none x hx])
  rw [stickyWithIndicator]
  by_cases hind : config.indicator
  · rw [if_pos hind, List.filter_append, hfilter_tr]
    simp only [List.filter_cons, List.filter_nil]
    simp only [Option.isNone_some, Bool.false_eq_true, if_false]
    simpa using htr_len
  · rw [if_neg hind, hfilter_tr]
    exact htr_len

theorem stickyFullRecompute_filter_length (nodes : Option (List StickyNode))
    (doc : DocModel) (view : ViewModel) (config : StickyConfig) (row : Nat)
    (l : List StickyNode)
    (h : stickyFullRecompute nodes doc view config row = some l) :
    (l.filter (fun n => n.indicator.isNone)).length ≤
      min (config.maxLines % 65536) (view.height / 3) := by
  rw [stickyFullRecompute] at h
  match hq : doc.contextQuery with
  | none => rw [hq] at h; exact Option.noConfusion h
  | some cq =>
    simp only [hq] at h
    match hsi : cq.captureContext with
    | none => simp [hsi] at h
    | some startIndex =>
      simp only [hsi] at h
      by_cases hempty : (stickyRaw (stickyAnchorLine doc view) startIndex
          (cq.captureContextParams.getD startIndex)
          (stickyTopFirstByte nodes doc view)
          (stickyLastScanByte nodes doc view config) view.anchorOffset
          (cq.qmatches (stickyLastScanByte nodes doc view config))).isEmpty = true
      · rw [if_pos hempty] at h
        exact Option.noConfusion h
      · rw [if_neg hempty] at h
        have hl := Option.some.inj h
        rw [← hl]
        exact stickyAssemble_filter_length _ view config row
          (stickyRaw_indicator_none _ _ _ _ _ _ _)

/-- C10: if the caller-supplied cursor cache is absent (the outer `Option`
is `None`, or it contains `None`), `calculate_sticky_nodes` returns `None`
regardless of the previous result, document, view, tree, or
configuration. -/
theorem C10_cursor_cache_absent (nodes : Option (List StickyNode)) (doc : DocModel)
    (view : ViewModel) (config : StickyConfig) :
    calculate_sticky_nodes nodes doc view config none = none ∧
    calculate_sticky_nodes nodes doc view config (some none) = none :=
  ⟨rfl, rfl⟩

/-- C7: whenever a previous sticky result exists whose stored anchor equals
the current view's top-of-viewport offset, and the cursor's visual row is
nonzero (with the engine's inputs present: a cached cursor position and a
syntax tree), `calculate_sticky_nodes` returns the previous list truncated
to its first `visual_cursor_row` entries — for any language query
whatsoever, i.e. without re-running the context query. -/
theorem C7_fast_path (ns : List StickyNode) (doc : DocModel) (view : ViewModel)
    (config : StickyConfig) (pos : Position)
    (htree : doc.hasTree = true) (hrow : pos.row ≠ 0)
    (hhit : ns.any (fun n => view.anchorOffset == n.anchor) = true) :
    calculate_sticky_nodes (some ns) doc view config (some (some pos)) =
      some (ns.take pos.row) := by
  rw [calculate_sticky_nodes]
  have hfast : fastPathHit (some ns) view = true := by
    rw [fastPathHit]
    exact hhit
  simp [htree, hrow, hfast]

/-- Witness for C7 at a concrete input. -/
theorem C7_fast_path_witness :
    calculate_sticky_nodes
        (some [{ line := 3, visual_line := 0, byte_range := (0, 0), indicator := none,
                 anchor := 7, has_context_end := false },
               { line := 5, visual_line := 1, byte_range := (0, 0), indicator := none,
                 anchor := 7, has_context_end := false }])
        ⟨true, id, id, id, 0, none⟩ ⟨7, 30, 10⟩ ⟨false, 5, false⟩ (some (some ⟨1, 0⟩)) =
      some [{ line := 3, visual_line := 0, byte_range := (0, 0), indicator := none,
              anchor := 7, has_context_end := false }] := by
  rw [C7_fast_path _ _ _ _ _ rfl (by decide) (by decide)]
  rfl

theorem stickyFullRecompute_invariant (nodes : Option (List StickyNode)) (doc : DocModel)
    (view : ViewModel) (config : StickyConfig) (row : Nat) (l : List StickyNode)
    (h : stickyFullRecompute nodes doc view config row = some l) :
    StickyInvariant l := by
  rw [stickyFullRecompute] at h
  match hq : doc.contextQuery with
  | none => rw [hq] at h; exact Option.noConfusion h
  | some cq =>
    simp only [hq] at h
    match hsi : cq.captureContext with
    | none => simp [hsi] at h
    | some startIndex =>
      simp only [hsi] at h
      by_cases hempty : (stickyRaw (stickyAnchorLine doc view) startIndex
          (cq.captureContextParams.getD startIndex)
          (stickyTopFirstByte nodes doc view)
          (stickyLastScanByte nodes doc view config) view.anchorOffset
          (cq.qmatches (stickyLastScanByte nodes doc view config))).isEmpty = true
      · rw [if_pos hempty] at h
        exact Option.noConfusion h
      · rw [if_neg hempty] at h
        have hl := Option.some.inj h
        rw [← hl]
        exact stickyAssemble_invariant _ view config row
          (stickyRaw_indicator_none _ _ _ _ _ _ _)

/-- C8: every produced sticky list — given that the previous list threaded
back in was itself well-formed — has strictly increasing `source_line`
across its non-indicator entries (hence no duplicates), `visual_line` equal
to the 0-based list position on every non-indicator entry, and at most one
indicator entry, in trailing position. -/
theorem C8_sticky_list_invariants (nodes : Option (List StickyNode)) (doc : DocModel)
    (view : ViewModel) (config : StickyConfig) (cc : Option (Option Position))
    (l : List StickyNode)
    (hprev : ∀ ns, nodes = some ns → StickyInvariant ns)
    (h : calculate_sticky_nodes nodes doc view config cc = some l) :
    StickyInvariant l := by
  match cc with
  | none => simp [calculate_sticky_nodes] at h
  | some none => simp [calculate_sticky_nodes] at h
  | some (some pos) =>
    rw [calculate_sticky_nodes] at h
    by_cases htree : doc.hasTree = false
    · rw [if_pos htree] at h
      exact Option.noConfusion h
    · rw [if_neg htree] at h
      by_cases hrow : pos.row = 0
      · rw [if_pos hrow] at h
        exact Option.noConfusion h
      · rw [if_neg hrow] at h
        by_cases hfast : fastPathHit nodes view = true
        · rw [if_pos hfast] at h
          match nodes with
          | none => simp [fastPathHit] at hfast
          | some ns =>
            have hinv := hprev ns rfl
            have hl : (ns.take pos.row) = l := by
              simpa using h
            rw [← hl]
            exact stickyInvariant_take ns pos.row hinv
        · rw [if_neg hfast] at h
          exact stickyFullRecompute_invariant nodes doc view config pos.row l h

/-- Witness for C8 at a concrete input (full recompute with two nested
context captures). -/
theorem C8_sticky_list_invariants_witness :
    StickyInvariant
      [{ line := 0, visual_line := 0, byte_range := (0, 0), indicator := none,
         anchor := 0, has_context_end := false },
       { line := 2, visual_line := 1, byte_range := (20, 20), indicator := none,
         anchor := 0, has_context_end := false }] :=
  C8_sticky_list_invariants none
    ⟨true, id, (fun _ => 0), (fun _ => 30), 60,
     some ⟨some 0, none, fun _ => [⟨[(0, ⟨0, 100, 0, 9⟩)]⟩, ⟨[(0, ⟨20, 90, 2, 8⟩)]⟩]⟩⟩
    ⟨0, 30, 10⟩ ⟨true, 5, false⟩ (some (some ⟨5, 0⟩)) _
    (fun ns hns => Option.noConfusion hns) rfl

/-- C1: on the full-recompute path (fast path missed), the result list
before the optional indicator entry — i.e. the non-indicator entries of any
produced list — has at most `max(max_lines, viewport_height / 3)` entries.
(The code's cap is in fact the tighter `min(max_lines as u16,
viewport_height / 3)`, which implies the claimed bound.) -/
theorem C1_cap_bound (nodes : Option (List StickyNode)) (doc : DocModel)
    (view : ViewModel) (config : StickyConfig) (cc : Option (Option Position))
    (l : List StickyNode)
    (hmiss : fastPathHit nodes view = false)
    (h : calculate_sticky_nodes nodes doc view config cc = some l) :
    (l.filter (fun n => n.indicator.isNone)).length ≤
      max config.maxLines (view.height / 3) := by
  match cc with
  | none => simp [calculate_sticky_nodes] at h
  | some none => simp [calculate_sticky_nodes] at h
  | some (some pos) =>
    rw [calculate_sticky_nodes] at h
    by_cases htree : doc.hasTree = false
    · rw [if_pos htree] at h
      exact Option.noConfusion h
    · rw [if_neg htree] at h
      by_cases hrow : pos.row = 0
      · rw [if_pos hrow] at h
        exact Option.noConfusion h
      · rw [if_neg hrow] at h
        rw [if_neg (by simp [hmiss])] at h
        have := stickyFullRecompute_filter_length nodes doc view config pos.row l h
        have h1 : min (config.maxLines % 65536) (view.height / 3) ≤ view.height / 3 :=
          Nat.min_le_right _ _
        have h2 : view.height / 3 ≤ max config.maxLines (view.height / 3) :=
          Nat.le_max_right _ _
        omega

/-- Witness for C1 at a concrete full-recompute input. -/
theorem C1_cap_bound_witness :
    (([{ line := 0, visual_line := 0, byte_range := (0, 0), indicator := none,
         anchor := 0, has_context_end := false },
       { line := 2, visual_line := 1, byte_range := (20, 20), indicator := none,
         anchor := 0, has_context_end := false }] : List StickyNode).filter
      (fun n => n.indicator.isNone)).length ≤ max 5 (30 / 3) :=
  C1_cap_bound none
    ⟨true, id, (fun _ => 0), (fun _ => 30), 60,
     some ⟨some 0, none, fun _ => [⟨[(0, ⟨0, 100, 0, 9⟩)]⟩, ⟨[(0, ⟨20, 90, 2, 8⟩)]⟩]⟩⟩
    ⟨0, 30, 10⟩ ⟨true, 5, false⟩ (some (some ⟨5, 0⟩)) _ rfl rfl

/-- C2: when the sorted, deduplicated list exceeds the cap, the cap step
keeps exactly `cap` entries and drops from the front: every dropped entry
has a strictly smaller `source_line` than every kept entry, so the
innermost (largest-line) context lines are kept. -/
theorem C2_drop_front (raw : List StickyNode) (maxLines height : Nat)
    (hover : min (maxLines % 65536) (height / 3) <
      (dedupByLine (sortByLine raw)).length) :
    (stickyCap (dedupByLine (sortByLine raw)) maxLines height).length =
      min (maxLines % 65536) (height / 3) ∧
    ∀ x ∈ dedupByLine (sortByLine raw),
      x ∉ stickyCap (dedupByLine (sortByLine raw)) maxLines height →
      ∀ y ∈ stickyCap (dedupByLine (sortByLine raw)) maxLines height,
        x.line < y.line := by
  set s := dedupByLine (sortByLine raw) with hs
  have hpair : s.Pairwise (fun a b => a.line < b.line) :=
    pairwise_dedupByLine (pairwise_sortByLine raw)
  constructor
  · rw [stickyCap_length]
    omega
  · intro x hx hnotin y hy
    have hcap : stickyCap s maxLines height =
        s.drop (s.length - min (maxLines % 65536) (height / 3)) := rfl
    set k := s.length - min (maxLines % 65536) (height / 3) with hk
    have hsplit : s.take k ++ s.drop k = s := List.take_append_drop k s
    have hxtake : x ∈ s.take k := by
      rw [← hsplit] at hx
      rcases List.mem_append.mp hx with h | h
      · exact h
      · exact absurd (by rw [hcap]; exact h) hnotin
    have hydrop : y ∈ s.drop k := by
      rw [hcap] at hy
      exact hy
    have hp2 : (s.take k ++ s.drop k).Pairwise (fun a b => a.line < b.line) := by
      rw [hsplit]
      exact hpair
    exact (List.pairwise_append.mp hp2).2.2 x hxtake y hydrop

/-- Witness for C2 at a concrete over-cap input. -/
theorem C2_drop_front_witness :
    (stickyCap (dedupByLine (sortByLine
        [{ line := 5, visual_line := 0, byte_range := (0, 0), indicator := none,
           anchor := 0, has_context_end := false },
         { line := 3, visual_line := 0, byte_range := (0, 0), indicator := none,
           anchor := 0, has_context_end := false }])) 1 30).length = 1 :=
  (C2_drop_front
    [{ line := 5, visual_line := 0, byte_range := (0, 0), indicator := none,
       anchor := 0, has_context_end := false },
     { line := 3, visual_line := 0, byte_range := (0, 0), indicator := none,
       anchor := 0, has_context_end := false }] 1 30 (by decide)).1

/-- The qualification predicate exactly as the claim states it: the node's
byte range contains both scan bytes, or (its start row equals
`anchor_line + results_so_far` AND a paired end-range was found). -/
def claimQualifies (anchorLine count : Nat) (nbr : Option (Nat × Nat))
    (topFirstByte lastScanByte : Nat) (node : QNode) : Prop :=
  (node.containsByte lastScanByte = true ∧ node.containsByte topFirstByte = true) ∨
  (node.srow = anchorLine + count ∧ nbr ≠ none)

/-- The qualification test the code actually performs, stated positively:
contains-both, or row-contiguity, or a paired end-range was found — three
independent alternatives. -/
def qualifiesAmended (anchorLine count : Nat) (nbr : Option (Nat × Nat))
    (topFirstByte lastScanByte : Nat) (node : QNode) : Bool :=
  (node.containsByte lastScanByte && node.containsByte topFirstByte) ||
  decide (node.srow = anchorLine + count) || decide (nbr ≠ none)

/-- C3 (amended): during full recompute a "context"-captured node is pushed
if and only if (a) its byte range contains both `last_scan_byte` and
`top_first_byte`, or (b) its start row equals `anchor_line` plus the number
of results accepted so far, or (c) a paired end-range was found for the
match; a node satisfying none of the three is dropped.  (In the code, (b)
does not require (c): the three conditions are independent
alternatives.) -/
theorem C3_qualification (aL vA : Nat) (nbr : Option (Nat × Nat)) (tf ls : Nat)
    (acc : List StickyNode) (node : QNode) :
    stickyRawPush aL vA nbr tf ls acc node =
      if qualifiesAmended aL acc.length nbr tf ls node then
        acc ++ [stickyOf node nbr vA]
      else acc := by
  rw [stickyRawPush, qualifiesAmended]
  by_cases h1 : node.containsByte ls = true <;>
    by_cases h2 : node.containsByte tf = true <;>
      by_cases h3 : node.srow = aL + acc.length <;>
        by_cases h4 : nbr = none <;>
          simp [h1, h2, h3, h4]

/-- Counterexample to C3 as stated: a capture with no paired end-range
whose start row is the next contiguous line is accepted by the code (it
appears in the output), although the claim's rule (b)-requires-end would
drop it. -/
theorem C3_counterexample :
    calculate_sticky_nodes none
        ⟨true, id, (fun _ => 0), (fun _ => 0), 0,
         some ⟨some 0, none, fun _ => [⟨[(0, ⟨5, 6, 0, 0⟩)]⟩]⟩⟩
        ⟨0, 30, 10⟩ ⟨false, 10, false⟩ (some (some ⟨1, 0⟩)) =
      some [{ line := 0, visual_line := 0, byte_range := (5, 5), indicator := none,
              anchor := 0, has_context_end := false }] ∧
    ¬ claimQualifies 0 0 (get_context_paired_range ⟨[(0, ⟨5, 6, 0, 0⟩)]⟩ 0 0 0 0)
        0 0 ⟨5, 6, 0, 0⟩ :=
  ⟨rfl, by simp only [claimQualifies]; decide⟩

/-- C9 (amended): `calculate_sticky_nodes` returns "no context" (`None`)
when the document has no syntax tree, when the cursor's visual row is 0,
and — provided the fast path does not fire — when the language has no
context query, when the query has no "context" capture, or when the raw
result is empty after filtering. -/
theorem C9_degraded (nodes : Option (List StickyNode)) (doc : DocModel)
    (view : ViewModel) (config : StickyConfig) (cc : Option (Option Position))
    (pos : Position) :
    (doc.hasTree = false → calculate_sticky_nodes nodes doc view config cc = none) ∧
    (pos.row = 0 →
      calculate_sticky_nodes nodes doc view config (some (some pos)) = none) ∧
    (fastPathHit nodes view = false → doc.contextQuery = none →
      calculate_sticky_nodes nodes doc view config cc = none) ∧
    (∀ cq, fastPathHit nodes view = false → doc.contextQuery = some cq →
      cq.captureContext = none →
      calculate_sticky_nodes nodes doc view config cc = none) ∧
    (∀ cq startIndex, fastPathHit nodes view = false → doc.contextQuery = some cq →
      cq.captureContext = some startIndex →
      stickyRaw (stickyAnchorLine doc view) startIndex
        (cq.captureContextParams.getD startIndex) (stickyTopFirstByte nodes doc view)
        (stickyLastScanByte nodes doc view config) view.anchorOffset
        (cq.qmatches (stickyLastScanByte nodes doc view config)) = [] →
      calculate_sticky_nodes nodes doc view config cc = none) := by
  have hfull : ∀ (hmiss : fastPathHit nodes view = false),
      calculate_sticky_nodes nodes doc view config cc = none ∨
      ∃ p : Position, cc = some (some p) ∧ p.row ≠ 0 ∧ doc.hasTree = true ∧
        calculate_sticky_nodes nodes doc view config cc =
          stickyFullRecompute nodes doc view config p.row := by
    intro hmiss
    match cc with
    | none => exact Or.inl rfl
    | some none => exact Or.inl rfl
    | some (some p) =>
      rw [calculate_sticky_nodes]
      by_cases htree : doc.hasTree = false
      · rw [if_pos htree]
        exact Or.inl rfl
      · rw [if_neg htree]
        by_cases hrow : p.row = 0
        · rw [if_pos hrow]
          exact Or.inl rfl
        · rw [if_neg hrow, if_neg (by simp [hmiss])]
          exact Or.inr ⟨p, rfl, hrow, by revert htree; cases doc.hasTree <;> simp, rfl⟩
  refine ⟨?_, ?_, ?_, ?_, ?_⟩
  · intro htree
    match cc with
    | none => rfl
    | some none => rfl
    | some (some p) =>
      rw [calculate_sticky_nodes, if_pos htree]
  · intro hrow
    rw [calculate_sticky_nodes]
    by_cases htree : doc.hasTree = false
    · rw [if_pos htree]
    · rw [if_neg htree, if_pos hrow]
  · intro hmiss hq
    rcases hfull hmiss with h | ⟨p, _, _, _, heq⟩
    · exact h
    · rw [heq, stickyFullRecompute, hq]
  · intro cq hmiss hq hcap
    rcases hfull hmiss with h | ⟨p, _, _, _, heq⟩
    · exact h
    · rw [heq, stickyFullRecompute, hq]
      simp [hcap]
  · intro cq startIndex hmiss hq hcap hraw
    rcases hfull hmiss with h | ⟨p, _, _, _, heq⟩
    · exact h
    · rw [heq, stickyFullRecompute, hq]
      simp only [hcap, hraw]
      simp

/-- Witness for C9 at concrete inputs: no tree, cursor row 0, and missing
query (with no previous result). -/
theorem C9_degraded_witness :
    calculate_sticky_nodes none ⟨false, id, id, id, 0, none⟩ ⟨0, 30, 10⟩
      ⟨false, 5, false⟩ (some (some ⟨1, 0⟩)) = none ∧
    calculate_sticky_nodes none ⟨true, id, id, id, 0, none⟩ ⟨0, 30, 10⟩
      ⟨false, 5, false⟩ (some (some ⟨0, 0⟩)) = none ∧
    calculate_sticky_nodes none ⟨true, id, id, id, 0, none⟩ ⟨0, 30, 10⟩
      ⟨false, 5, false⟩ (some (some ⟨1, 0⟩)) = none :=
  ⟨(C9_degraded none ⟨false, id, id, id, 0, none⟩ ⟨0, 30, 10⟩ ⟨false, 5, false⟩
      (some (some ⟨1, 0⟩)) ⟨1, 0⟩).1 rfl,
   (C9_degraded none ⟨true, id, id, id, 0, none⟩ ⟨0, 30, 10⟩ ⟨false, 5, false⟩
      (some (some ⟨0, 0⟩)) ⟨0, 0⟩).2.1 rfl,
   (C9_degraded none ⟨true, id, id, id, 0, none⟩ ⟨0, 30, 10⟩ ⟨false, 5, false⟩
      (some (some ⟨1, 0⟩)) ⟨1, 0⟩).2.2.1 rfl rfl⟩

/-- Counterexample to C9 as stated: with a previous result whose entry
stores the current anchor, the fast path fires before the language query is
even looked up, so a document with no context query still yields a
(non-`None`) result. -/
theorem C9_counterexample :
    (⟨true, id, id, id, 0, none⟩ : DocModel).contextQuery = none ∧
    calculate_sticky_nodes
        (some [{ line := 3, visual_line := 0, byte_range := (0, 0), indicator := none,
                 anchor := 0, has_context_end := false }])
        ⟨true, id, id, id, 0, none⟩ ⟨0, 30, 10⟩ ⟨false, 5, false⟩
        (some (some ⟨1, 0⟩)) =
      some [{ line := 3, visual_line := 0, byte_range := (0, 0), indicator := none,
              anchor := 0, has_context_end := false }] :=
  ⟨rfl, rfl⟩

/-! ## Lemmas about the node selector -/

theorem forestWF_mem : ∀ (cs : List STree) (lo hi : Nat), forestWF lo hi cs = true →
    ∀ c ∈ cs, treeWF c = true ∧ lo ≤ c.info.sb ∧ c.info.eb ≤ hi := by
  intro cs
  induction cs with
  | nil => intro lo hi _ c hc; simp at hc
  | cons d rest ih =>
    intro lo hi h c hc
    rw [forestWF] at h
    simp only [Bool.and_eq_true, decide_eq_true_eq] at h
    rcases List.mem_cons.mp hc with rfl | hc
    · exact ⟨h.1.2, h.1.1.1, h.1.1.2⟩
    · exact ih lo hi h.2 c hc

theorem treeWF_parts : ∀ (t : STree), treeWF t = true →
    t.info.sb ≤ t.info.eb ∧ forestWF t.info.sb t.info.eb t.children = true := by
  intro t h
  cases t with
  | mk i cs =>
    rw [treeWF] at h
    simp only [Bool.and_eq_true, decide_eq_true_eq] at h
    exact ⟨h.1, h.2⟩

theorem treeWF_children (t : STree) (ht : treeWF t = true) :
    ∀ c ∈ t.children, treeWF c = true ∧ t.info.sb ≤ c.info.sb ∧ c.info.eb ≤ t.info.eb := by
  have := treeWF_parts t ht
  exact forestWF_mem t.children _ _ this.2

theorem descend_stack_covers_all :
    (∀ (t : STree) (f tob : Nat), coversN t f tob = true →
      ∀ x ∈ (descendT t f tob).node :: (descendT t f tob).anc, coversN x f tob = true) ∧
    (∀ (p : STree) (f tob : Nat) (cs : List STree), coversN p f tob = true →
      ∀ r : NodeRef, descendF p f tob cs = some r →
      ∀ x ∈ r.node :: r.anc, coversN x f tob = true) := by
  apply descendT.mutual_induct
    (fun t f tob => coversN t f tob = true →
      ∀ x ∈ (descendT t f tob).node :: (descendT t f tob).anc, coversN x f tob = true)
    (fun p f tob cs => coversN p f tob = true →
      ∀ r : NodeRef, descendF p f tob cs = some r →
      ∀ x ∈ r.node :: r.anc, coversN x f tob = true)
  · intro i cs f tob r hF ih hcov x hx
    rw [descendT, hF] at hx
    exact ih hcov r hF x hx
  · intro i cs f tob hF ih hcov x hx
    rw [descendT, hF] at hx
    simp at hx
    subst hx
    exact hcov
  · intro p f tob hcov r hF
    rw [descendF] at hF
    exact Option.noConfusion hF
  · intro p f tob c rest hc ih hcov r hF
    rw [descendF, if_pos hc] at hF
    have hr := Option.some.inj hF
    intro x hx
    rw [← hr] at hx
    simp only [List.mem_cons, List.mem_append] at hx
    rcases hx with rfl | hx
    · exact ih hc (descendT c f tob).node (by simp)
    · rcases hx with hx | hx
      · exact ih hc x (by simp [hx])
      · simp at hx
        subst hx
        exact hcov
  · intro p f tob c rest hc ih hcov r hF
    rw [descendF, if_neg hc] at hF
    exact ih hcov r hF

theorem descend_stack_covers (t : STree) (f tob : Nat) (h : coversN t f tob = true) :
    ∀ x ∈ (descendT t f tob).node :: (descendT t f tob).anc, coversN x f tob = true :=
  descend_stack_covers_all.1 t f tob h

theorem descend_stack_wf_all :
    (∀ (t : STree) (f tob : Nat), treeWF t = true →
      ∀ x ∈ (descendT t f tob).node :: (descendT t f tob).anc,
        treeWF x = true ∧ t.info.sb ≤ x.info.sb ∧ x.info.eb ≤ t.info.eb) ∧
    (∀ (p : STree) (f tob : Nat) (cs : List STree),
      treeWF p = true → forestWF p.info.sb p.info.eb cs = true →
      ∀ r : NodeRef, descendF p f tob cs = some r →
      ∀ x ∈ r.node :: r.anc,
        treeWF x = true ∧ p.info.sb ≤ x.info.sb ∧ x.info.eb ≤ p.info.eb) := by
  apply descendT.mutual_induct
    (fun t f tob => treeWF t = true →
      ∀ x ∈ (descendT t f tob).node :: (descendT t f tob).anc,
        treeWF x = true ∧ t.info.sb ≤ x.info.sb ∧ x.info.eb ≤ t.info.eb)
    (fun p f tob cs =>
      treeWF p = true → forestWF p.info.sb p.info.eb cs = true →
      ∀ r : NodeRef, descendF p f tob cs = some r →
      ∀ x ∈ r.node :: r.anc,
        treeWF x = true ∧ p.info.sb ≤ x.info.sb ∧ x.info.eb ≤ p.info.eb)
  · intro i cs f tob r hF ih hwf x hx
    rw [descendT, hF] at hx
    have hparts := treeWF_parts _ hwf
    exact ih hwf hparts.2 r hF x hx
  · intro i cs f tob hF ih hwf x hx
    rw [descendT, hF] at hx
    simp at hx
    subst hx
    exact ⟨hwf, le_refl _, le_refl _⟩
  · intro p f tob hwf hfor r hF
    rw [descendF] at hF
    exact Option.noConfusion hF
  · intro p f tob c rest hc ih hwf hfor r hF
    rw [descendF, if_pos hc] at hF
    have hr := Option.some.inj hF
    rw [forestWF] at hfor
    simp only [Bool.and_eq_true, decide_eq_true_eq] at hfor
    have hcw : treeWF c = true := hfor.1.2
    have hcsb : p.info.sb ≤ c.info.sb := hfor.1.1.1
    have hceb : c.info.eb ≤ p.info.eb := hfor.1.1.2
    intro x hx
    rw [← hr] at hx
    simp only [List.mem_cons, List.mem_append] at hx
    rcases hx with rfl | hx
    · obtain ⟨h1, h2, h3⟩ := ih hcw (descendT c f tob).node (by simp)
      exact ⟨h1, by omega, by omega⟩
    · rcases hx with hx | hx
      · obtain ⟨h1, h2, h3⟩ := ih hcw x (by simp [hx])
        exact ⟨h1, by omega, by omega⟩
      · simp at hx
        subst hx
        exact ⟨hwf, le_refl _, le_refl _⟩
  · intro p f tob c rest hc ih hwf hfor r hF
    rw [descendF, if_neg hc] at hF
    rw [forestWF] at hfor
    simp only [Bool.and_eq_true, decide_eq_true_eq] at hfor
    exact ih hwf hfor.2 r hF

theorem descend_stack_wf (t : STree) (f tob : Nat) (h : treeWF t = true) :
    ∀ x ∈ (descendT t f tob).node :: (descendT t f tob).anc,
      treeWF x = true ∧ t.info.sb ≤ x.info.sb ∧ x.info.eb ≤ t.info.eb :=
  descend_stack_wf_all.1 t f tob h

theorem expandFn_mem : ∀ (anc : List STree) (n : STree) (f tob : Nat) (r : NodeRef),
    expandFn n anc f tob = some r → r.node ∈ n :: anc := by
  intro anc
  induction anc with
  | nil =>
    intro n f tob r h
    rw [expandFn] at h
    by_cases hc : n.info.sb = f ∧ n.info.eb = tob
    · rw [if_pos hc] at h
      exact Option.noConfusion h
    · rw [if_neg hc] at h
      have := Option.some.inj h
      rw [← this]
      simp
  | cons a rest ih =>
    intro n f tob r h
    rw [expandFn] at h
    by_cases hc : n.info.sb = f ∧ n.info.eb = tob
    · rw [if_pos hc] at h
      have := ih a f tob r h
      exact List.mem_cons_of_mem n this
    · rw [if_neg hc] at h
      have := Option.some.inj h
      rw [← this]
      simp

theorem expandFn_none : ∀ (anc : List STree) (n : STree) (f tob : Nat),
    (∀ x ∈ n :: anc, x.info.sb = f ∧ x.info.eb = tob) →
    expandFn n anc f tob = none := by
  intro anc
  induction anc with
  | nil =>
    intro n f tob h
    rw [expandFn, if_pos (h n (by simp))]
  | cons a rest ih =>
    intro n f tob h
    rw [expandFn, if_pos (h n (by simp))]
    exact ih a f tob (fun x hx => h x (by simp [List.mem_cons.mp hx]))

theorem findSiblingRecursive_some (sibFn : NodeRef → Option NodeRef) :
    ∀ (anc : List STree) (n : STree) (s : NodeRef),
    findSiblingRecursive sibFn n anc = some s → ∃ q, sibFn q = some s := by
  intro anc
  induction anc with
  | nil =>
    intro n s h
    rw [findSiblingRecursive] at h
    exact ⟨_, h⟩
  | cons a rest ih =>
    intro n s h
    rw [findSiblingRecursive] at h
    match hb : sibFn ⟨n, a :: rest⟩ with
    | some q =>
      rw [hb] at h
      simp at h
      exact ⟨⟨n, a :: rest⟩, by rw [hb]; exact congrArg some h⟩
    | none =>
      rw [hb] at h
      exact ih a s h

theorem findParentWithMoreChildren_mem : ∀ (anc : List STree) (p : NodeRef),
    findParentWithMoreChildren anc = some p → p.node ∈ anc := by
  intro anc
  induction anc with
  | nil => intro p h; rw [findParentWithMoreChildren] at h; exact Option.noConfusion h
  | cons a rest ih =>
    intro p h
    rw [findParentWithMoreChildren] at h
    by_cases hc : a.childCount > 1
    · rw [if_pos hc] at h
      rw [← Option.some.inj h]
      simp
    · rw [if_neg hc] at h
      exact List.mem_cons_of_mem a (ih p h)

theorem selectChildren_none_iff (node : STree) (ws : List Nat) (b : Bool) :
    selectChildren node ws b = none ↔ node.namedChildrenList = [] := by
  cases hnc : node.namedChildrenList with
  | nil => simp [selectChildren, hnc]
  | cons c cs => simp [selectChildren, hnc]

theorem selectChildren_some_length (node : STree) (ws : List Nat) (b : Bool)
    (cs : List Range) (h : selectChildren node ws b = some cs) :
    cs.length = node.namedChildrenList.length := by
  rw [selectChildren] at h
  by_cases he : (node.namedChildrenList.map (fun c =>
      let f := byteToChar ws c.info.sb
      let t := byteToChar ws c.info.eb
      if b then (⟨t, f⟩ : Range) else ⟨f, t⟩)).isEmpty = true
  · rw [if_pos he] at h
    exact Option.noConfusion h
  · rw [if_neg he] at h
    rw [← Option.some.inj h]
    simp

/-- C5: for `select_all_siblings` and `select_all_children`, the number of
output ranges for an input range equals the named-child count of the
resolved node (the first ancestor with more than one child for siblings;
the covering node itself for children); if the resolved node has zero named
children, or no node is resolved, the original range is returned
unchanged. -/
theorem C5_fanout_count (root : STree) (ws : List Nat) (r : Range) :
    (∀ p : NodeRef,
      ((descendantForByteRange root (charToByte ws r.rfrom) (charToByte ws r.rto)).bind
        (fun d => findParentWithMoreChildren d.anc)) = some p →
      (p.node.namedChildrenList ≠ [] →
        (selectAllSiblingsRange root ws r).length = p.node.namedChildrenList.length) ∧
      (p.node.namedChildrenList = [] → selectAllSiblingsRange root ws r = [r])) ∧
    (((descendantForByteRange root (charToByte ws r.rfrom) (charToByte ws r.rto)).bind
        (fun d => findParentWithMoreChildren d.anc)) = none →
      selectAllSiblingsRange root ws r = [r]) ∧
    (∀ d : NodeRef,
      descendantForByteRange root (charToByte ws r.rfrom) (charToByte ws r.rto) = some d →
      (d.node.namedChildrenList ≠ [] →
        (selectAllChildrenRange root ws r).length = d.node.namedChildrenList.length) ∧
      (d.node.namedChildrenList = [] → selectAllChildrenRange root ws r = [r])) ∧
    (descendantForByteRange root (charToByte ws r.rfrom) (charToByte ws r.rto) = none →
      selectAllChildrenRange root ws r = [r]) := by
  refine ⟨?_, ?_, ?_, ?_⟩
  · intro p hp
    constructor
    · intro hne
      rw [selectAllSiblingsRange]
      simp only [hp, Option.some_bind]
      match hsc : selectChildren p.node ws r.isBackward with
      | none => exact absurd ((selectChildren_none_iff _ _ _).mp hsc) hne
      | some cs =>
        simp only [Option.getD_some]
        exact selectChildren_some_length _ _ _ _ hsc
    · intro hnil
      rw [selectAllSiblingsRange]
      simp only [hp, Option.some_bind]
      rw [(selectChildren_none_iff _ _ _).mpr hnil]
      rfl
  · intro hnone
    rw [selectAllSiblingsRange]
    simp only [hnone, Option.none_bind]
    rfl
  · intro d hd
    constructor
    · intro hne
      rw [selectAllChildrenRange]
      simp only [hd, Option.some_bind]
      match hsc : selectChildren d.node ws r.isBackward with
      | none => exact absurd ((selectChildren_none_iff _ _ _).mp hsc) hne
      | some cs =>
        simp only [Option.getD_some]
        exact selectChildren_some_length _ _ _ _ hsc
    · intro hnil
      rw [selectAllChildrenRange]
      simp only [hd, Option.some_bind]
      rw [(selectChildren_none_iff _ _ _).mpr hnil]
      rfl
  · intro hnone
    rw [selectAllChildrenRange]
    simp only [hnone, Option.none_bind]
    rfl

/-- A concrete example tree: the call `bar(a, b, c)` over a 12-character
ASCII text. -/
def exArgs : STree :=
  .mk ⟨3, 12, true⟩ [.mk ⟨4, 5, true⟩ [], .mk ⟨7, 8, true⟩ [], .mk ⟨10, 11, true⟩ []]

def exRoot : STree := .mk ⟨0, 12, true⟩ [.mk ⟨0, 3, true⟩ [], exArgs]

def exWs : List Nat := List.replicate 12 1

/-- Witness for C5 at the concrete example: fanning out from `a` yields one
range per named child of the argument list. -/
theorem C5_fanout_count_witness :
    (selectAllSiblingsRange exRoot exWs ⟨4, 5⟩).length =
      (exArgs.namedChildrenList).length ∧
    (selectAllChildrenRange exRoot exWs ⟨4, 5⟩) = [⟨4, 5⟩] :=
  ⟨((C5_fanout_count exRoot exWs ⟨4, 5⟩).1 ⟨exArgs, [exRoot]⟩ rfl).1
     (List.cons_ne_nil _ _),
   ((C5_fanout_count exRoot exWs ⟨4, 5⟩).2.2.1 ⟨.mk ⟨4, 5, true⟩ [], [exArgs, exRoot]⟩
      rfl).2 rfl⟩

/-- The direction relation that actually holds between an output range and
its input range: the output is Backward exactly when the input was Backward
and the output has a nonzero span. -/
def dirPreserved (o r : Range) : Prop :=
  (o.head < o.anchor) ↔ (r.head < r.anchor ∧ o.head ≠ o.anchor)

theorem dirPreserved_self (r : Range) : dirPreserved r r := by
  rw [dirPreserved]
  omega

theorem selectNodeRange_direction (root : STree) (ws : List Nat)
    (selFn : NodeRef → Nat → Nat → Option NodeRef) (r : Range)
    (hsel : ∀ nr' : NodeRef,
      ((descendantForByteRange root (charToByte ws r.rfrom) (charToByte ws r.rto)).bind
        (fun nr => selFn nr (charToByte ws r.rfrom) (charToByte ws r.rto))) = some nr' →
      nr'.node.info.sb ≤ nr'.node.info.eb) :
    dirPreserved (selectNodeRange root ws selFn r) r := by
  rw [selectNodeRange, dirPreserved]
  match hm : (descendantForByteRange root (charToByte ws r.rfrom) (charToByte ws r.rto)).bind
      (fun nr => selFn nr (charToByte ws r.rfrom) (charToByte ws r.rto)) with
  | none =>
    simp only [hm]
    omega
  | some nr' =>
    simp only [hm]
    have hf2t2 : byteToChar ws nr'.node.info.sb ≤ byteToChar ws nr'.node.info.eb :=
      byteToChar_mono ws (hsel nr' hm)
    by_cases hdir : r.head < r.anchor
    · simp only [if_pos hdir]
      constructor
      · intro h
        exact ⟨hdir, by omega⟩
      · intro h
        omega
    · simp only [if_neg hdir]
      omega

theorem selectChildren_direction (node : STree) (ws : List Nat) (r : Range)
    (hwf : treeWF node = true) (cs : List Range)
    (h : selectChildren node ws r.isBackward = some cs) :
    ∀ o ∈ cs, dirPreserved o r := by
  intro o ho
  rw [selectChildren] at h
  by_cases he : (node.namedChildrenList.map (fun c =>
      let f := byteToChar ws c.info.sb
      let t := byteToChar ws c.info.eb
      if r.isBackward then (⟨t, f⟩ : Range) else ⟨f, t⟩)).isEmpty = true
  · rw [if_pos he] at h
    exact Option.noConfusion h
  · rw [if_neg he] at h
    rw [← Option.some.inj h] at ho
    obtain ⟨c, hc, hco⟩ := List.mem_map.mp ho
    have hcwf := treeWF_children node hwf c (List.mem_of_mem_filter hc)
    have hsbeb : c.info.sb ≤ c.info.eb := (treeWF_parts c hcwf.1).1
    have hmono : byteToChar ws c.info.sb ≤ byteToChar ws c.info.eb :=
      byteToChar_mono ws hsbeb
    rw [dirPreserved, ← hco]
    by_cases hdir : r.head < r.anchor
    · have hb : r.isBackward = true := by
        rw [Range.isBackward]
        simpa using hdir
      rw [hb, if_pos rfl]
      dsimp only
      constructor
      · intro h2
        exact ⟨hdir, by omega⟩
      · intro h2
        omega
    · have hb : r.isBackward = false := by
        rw [Range.isBackward]
        simpa using hdir
      rw [hb, if_neg (by simp)]
      dsimp only
      omega

/-- C6 (amended): all Node Selector operations preserve range direction up
to span collapse: an output range satisfies `head < anchor` iff the
corresponding input range did AND the output span is nonzero
(`head ≠ anchor`); a zero-span output range is always Forward.  Stated for
`expand_selection`, `shrink_selection`, `select_sibling` (for any sibling
function returning well-formed nodes), `select_all_siblings` and
`select_all_children` through their per-range bodies. -/
theorem C6_direction (root : STree) (ws : List Nat)
    (sibFn : NodeRef → Option NodeRef) (r : Range)
    (hwf : treeWF root = true)
    (hsib : ∀ q s, sibFn q = some s → s.node.info.sb ≤ s.node.info.eb) :
    dirPreserved (expandRange root ws r) r ∧
    dirPreserved (shrinkRange root ws r) r ∧
    dirPreserved (selectSiblingRange root ws sibFn r) r ∧
    (∀ o ∈ selectAllSiblingsRange root ws r, dirPreserved o r) ∧
    (∀ o ∈ selectAllChildrenRange root ws r, dirPreserved o r) := by
  have hft : charToByte ws r.rfrom ≤ charToByte ws r.rto :=
    charToByte_mono ws (min_le_max)
  have hdesc : ∀ d : NodeRef,
      descendantForByteRange root (charToByte ws r.rfrom) (charToByte ws r.rto) = some d →
      (∀ x ∈ d.node :: d.anc, coversN x (charToByte ws r.rfrom) (charToByte ws r.rto) = true) ∧
      (∀ x ∈ d.node :: d.anc, treeWF x = true) := by
    intro d hd
    rw [descendantForByteRange] at hd
    by_cases hcov : coversN root (charToByte ws r.rfrom) (charToByte ws r.rto) = true
    · rw [if_pos hcov] at hd
      have hde := Option.some.inj hd
      subst hde
      exact ⟨descend_stack_covers root _ _ hcov,
        fun x hx => (descend_stack_wf root _ _ hwf x hx).1⟩
    · rw [if_neg hcov] at hd
      exact Option.noConfusion hd
  refine ⟨?_, ?_, ?_, ?_, ?_⟩
  · -- expand_selection
    apply selectNodeRange_direction
    intro nr' hm
    obtain ⟨d, hd, hsel⟩ := Option.bind_eq_some.mp hm
    have hmem := expandFn_mem d.anc d.node _ _ nr' hsel
    have hcov := (hdesc d hd).1 nr'.node hmem
    rw [coversN] at hcov
    simp only [Bool.and_eq_true, decide_eq_true_eq] at hcov
    omega
  · -- shrink_selection
    apply selectNodeRange_direction
    intro nr' hm
    obtain ⟨d, hd, hsel⟩ := Option.bind_eq_some.mp hm
    rw [shrinkFn] at hsel
    match hch : d.node.children with
    | [] =>
      rw [hch] at hsel
      have := Option.some.inj hsel
      subst this
      have hdwf := (hdesc d hd).2 d.node (by simp)
      exact (treeWF_parts _ hdwf).1
    | c :: rest =>
      rw [hch] at hsel
      have := Option.some.inj hsel
      subst this
      have hdwf := (hdesc d hd).2 d.node (by simp)
      have := treeWF_children d.node hdwf c (by rw [hch]; simp)
      exact (treeWF_parts c this.1).1
  · -- select_sibling
    apply selectNodeRange_direction
    intro nr' hm
    obtain ⟨d, hd, hsel⟩ := Option.bind_eq_some.mp hm
    obtain ⟨q, hq⟩ := findSiblingRecursive_some sibFn d.anc d.node nr' hsel
    exact hsib q nr' hq
  · -- select_all_siblings
    intro o ho
    rw [selectAllSiblingsRange] at ho
    match hch : ((descendantForByteRange root (charToByte ws r.rfrom)
        (charToByte ws r.rto)).bind (fun d => findParentWithMoreChildren d.anc)).bind
        (fun p => selectChildren p.node ws r.isBackward) with
    | none =>
      rw [hch] at ho
      simp at ho
      rw [ho]
      exact dirPreserved_self r
    | some cs =>
      rw [hch] at ho
      simp only [Option.getD_some] at ho
      obtain ⟨x, hx, hsc⟩ := Option.bind_eq_some.mp hch
      obtain ⟨d, hd, hp⟩ := Option.bind_eq_some.mp hx
      have hpmem := findParentWithMoreChildren_mem d.anc x hp
      have hxwf : treeWF x.node = true := (hdesc d hd).2 x.node (by simp [hpmem])
      exact selectChildren_direction x.node ws r hxwf cs hsc o ho
  · -- select_all_children
    intro o ho
    rw [selectAllChildrenRange] at ho
    match hch : (descendantForByteRange root (charToByte ws r.rfrom)
        (charToByte ws r.rto)).bind (fun d => selectChildren d.node ws r.isBackward) with
    | none =>
      rw [hch] at ho
      simp at ho
      rw [ho]
      exact dirPreserved_self r
    | some cs =>
      rw [hch] at ho
      simp only [Option.getD_some] at ho
      obtain ⟨d, hd, hsc⟩ := Option.bind_eq_some.mp hch
      have hdwf : treeWF d.node = true := (hdesc d hd).2 d.node (by simp)
      exact selectChildren_direction d.node ws r hdwf cs hsc o ho

/-- Witness for C6 at the concrete example tree. -/
theorem C6_direction_witness :
    dirPreserved (expandRange exRoot exWs ⟨4, 5⟩) ⟨4, 5⟩ ∧
    (∀ o ∈ selectAllSiblingsRange exRoot exWs ⟨5, 4⟩, dirPreserved o ⟨5, 4⟩) :=
  ⟨(C6_direction exRoot exWs (fun _ => none) ⟨4, 5⟩ (by decide)
      (fun q s h => Option.noConfusion h)).1,
   (C6_direction exRoot exWs (fun _ => none) ⟨5, 4⟩ (by decide)
      (fun q s h => Option.noConfusion h)).2.2.2.1⟩

/-- A well-formed tree whose root has a zero-width first child. -/
def cex6root : STree := .mk ⟨0, 2, true⟩ [.mk ⟨0, 0, true⟩ [], .mk ⟨1, 2, true⟩ []]

/-- The output range of shrinking the backward range `2..0` over
`cex6root`. -/
def cex6out : Range :=
  (shrink_selection cex6root [1, 1] ⟨[⟨2, 0⟩], 0⟩).ranges.getD 0 ⟨0, 0⟩

/-- Counterexample to C6 as stated: shrinking a backward range whose
covering node's first child is zero-width produces a zero-span (hence
Forward) output, so `head < anchor` does not transfer. -/
theorem C6_counterexample :
    treeWF cex6root = true ∧ cex6out = ⟨0, 0⟩ ∧
    ¬ ((cex6out.head < cex6out.anchor) ↔
        ((⟨2, 0⟩ : Range).head < (⟨2, 0⟩ : Range).anchor)) :=
  ⟨by decide, by decide, by decide⟩

/-- Output range `b` never shrinks input range `a`: `b`'s span contains
`a`'s span. -/
def spanContains (a b : Range) : Prop :=
  b.rfrom ≤ a.rfrom ∧ a.rto ≤ b.rto

theorem expandRange_not_shrink (root : STree) (ws : List Nat) (r : Range)
    (hpos : ∀ w ∈ ws, 0 < w)
    (ha : r.anchor ≤ ws.length) (hh : r.head ≤ ws.length) :
    spanContains r (expandRange root ws r) := by
  rw [expandRange, selectNodeRange, spanContains]
  match hm : (descendantForByteRange root (charToByte ws r.rfrom) (charToByte ws r.rto)).bind
      (fun nr => expandFn nr.node nr.anc (charToByte ws r.rfrom) (charToByte ws r.rto)) with
  | none =>
    simp only [hm]
    exact ⟨le_refl _, le_refl _⟩
  | some nr' =>
    simp only [hm]
    obtain ⟨d, hd, hsel⟩ := Option.bind_eq_some.mp hm
    rw [descendantForByteRange] at hd
    by_cases hcov : coversN root (charToByte ws r.rfrom) (charToByte ws r.rto) = true
    · rw [if_pos hcov] at hd
      have hde := Option.some.inj hd
      subst hde
      have hmem := expandFn_mem _ _ _ _ nr' hsel
      have hcv := descend_stack_covers root _ _ hcov nr'.node hmem
      rw [coversN] at hcv
      simp only [Bool.and_eq_true, decide_eq_true_eq] at hcv
      have hrf : r.rfrom ≤ ws.length := by
        rw [Range.rfrom]
        omega
      have hrt : r.rto ≤ ws.length := by
        rw [Range.rto]
        omega
      have h1 : byteToChar ws nr'.node.info.sb ≤ r.rfrom := by
        have := byteToChar_mono ws hcv.1
        rw [byteToChar_charToByte ws r.rfrom hpos hrf] at this
        exact this
      have h2 : r.rto ≤ byteToChar ws nr'.node.info.eb := by
        have := byteToChar_mono ws hcv.2
        rw [byteToChar_charToByte ws r.rto hpos hrt] at this
        exact this
      by_cases hdir : r.head < r.anchor
      · rw [if_pos hdir]
        simp only [Range.rfrom, Range.rto] at h1 h2 ⊢
        omega
      · rw [if_neg hdir]
        simp only [Range.rfrom, Range.rto] at h1 h2 ⊢
        omega
    · rw [if_neg hcov] at hd
      exact Option.noConfusion hd

theorem expandRange_bounds (root : STree) (ws : List Nat) (r : Range)
    (ha : r.anchor ≤ ws.length) (hh : r.head ≤ ws.length) :
    (expandRange root ws r).anchor ≤ ws.length ∧
    (expandRange root ws r).head ≤ ws.length := by
  rw [expandRange, selectNodeRange]
  match hm : (descendantForByteRange root (charToByte ws r.rfrom) (charToByte ws r.rto)).bind
      (fun nr => expandFn nr.node nr.anc (charToByte ws r.rfrom) (charToByte ws r.rto)) with
  | none =>
    simp only [hm]
    exact ⟨ha, hh⟩
  | some nr' =>
    simp only [hm]
    by_cases hdir : r.head < r.anchor
    · rw [if_pos hdir]
      exact ⟨byteToChar_le_length ws _, byteToChar_le_length ws _⟩
    · rw [if_neg hdir]
      exact ⟨byteToChar_le_length ws _, byteToChar_le_length ws _⟩

theorem expand_inv (root : STree) (ws : List Nat) (sel : Selection)
    (hb : ∀ r ∈ sel.ranges, r.anchor ≤ ws.length ∧ r.head ≤ ws.length) :
    ∀ r ∈ (expand_selection root ws sel).ranges,
      r.anchor ≤ ws.length ∧ r.head ≤ ws.length := by
  intro r' hr'
  have hmr : (expand_selection root ws sel).ranges =
      sel.ranges.map (expandRange root ws) := rfl
  rw [hmr] at hr'
  obtain ⟨r, hr, hmap⟩ := List.mem_map.mp hr'
  rw [← hmap]
  exact expandRange_bounds root ws r (hb r hr).1 (hb r hr).2

theorem forall₂_span_map (root : STree) (ws : List Nat) (hpos : ∀ w ∈ ws, 0 < w) :
    ∀ l : List Range, (∀ r ∈ l, r.anchor ≤ ws.length ∧ r.head ≤ ws.length) →
    List.Forall₂ spanContains l (l.map (expandRange root ws)) := by
  intro l
  induction l with
  | nil => intro _; simp
  | cons r rest ih =>
    intro hb
    rw [List.map_cons]
    exact List.Forall₂.cons
      (expandRange_not_shrink root ws r hpos (hb r (by simp)).1 (hb r (by simp)).2)
      (ih (fun x hx => hb x (by simp [hx])))

theorem expandRange_rootSpan (root : STree) (ws : List Nat) (r : Range)
    (hwf : treeWF root = true)
    (hf : charToByte ws r.rfrom = root.info.sb)
    (ht : charToByte ws r.rto = root.info.eb) :
    expandRange root ws r = r := by
  rw [expandRange, selectNodeRange]
  have hcov : coversN root (charToByte ws r.rfrom) (charToByte ws r.rto) = true := by
    rw [coversN, hf, ht]
    simp
  have hall : ∀ x ∈ (descendT root (charToByte ws r.rfrom) (charToByte ws r.rto)).node ::
      (descendT root (charToByte ws r.rfrom) (charToByte ws r.rto)).anc,
      x.info.sb = charToByte ws r.rfrom ∧ x.info.eb = charToByte ws r.rto := by
    intro x hx
    have h1 := descend_stack_covers root _ _ hcov x hx
    have h2 := descend_stack_wf root _ _ hwf x hx
    rw [coversN] at h1
    simp only [Bool.and_eq_true, decide_eq_true_eq] at h1
    obtain ⟨_, h3, h4⟩ := h2
    omega
  have hnone := expandFn_none _ _ _ _ hall
  rw [descendantForByteRange, if_pos hcov]
  simp only [Option.some_bind, hnone]

/-- C4: `expand_selection` never shrinks any range's span (each output
range's span contains the corresponding input range's span, stated for
every iterate, which gives monotone non-decrease under repeated
application), and it is a no-op on a range that spans the root node — both
per-range and for a whole selection of root-spanning ranges. -/
theorem C4_expand_monotone (root : STree) (ws : List Nat) (sel : Selection)
    (hpos : ∀ w ∈ ws, 0 < w) (hwf : treeWF root = true)
    (hb : ∀ r ∈ sel.ranges, r.anchor ≤ ws.length ∧ r.head ≤ ws.length) :
    (∀ n : Nat, List.Forall₂ spanContains
      (((expand_selection root ws)^[n] sel).ranges)
      (((expand_selection root ws)^[n + 1] sel).ranges)) ∧
    (∀ r ∈ sel.ranges,
      charToByte ws r.rfrom = root.info.sb → charToByte ws r.rto = root.info.eb →
      expandRange root ws r = r) ∧
    ((∀ r ∈ sel.ranges, charToByte ws r.rfrom = root.info.sb ∧
        charToByte ws r.rto = root.info.eb) →
      expand_selection root ws sel = sel) := by
  have hinv : ∀ n : Nat, ∀ r ∈ ((expand_selection root ws)^[n] sel).ranges,
      r.anchor ≤ ws.length ∧ r.head ≤ ws.length := by
    intro n
    induction n with
    | zero => simpa using hb
    | succ n ih =>
      rw [Function.iterate_succ_apply']
      exact expand_inv root ws _ ih
  refine ⟨?_, ?_, ?_⟩
  · intro n
    rw [Function.iterate_succ_apply']
    have hmr : ((expand_selection root ws) ((expand_selection root ws)^[n] sel)).ranges =
        ((expand_selection root ws)^[n] sel).ranges.map (expandRange root ws) := rfl
    rw [hmr]
    exact forall₂_span_map root ws hpos _ (hinv n)
  · intro r hr hf ht
    exact expandRange_rootSpan root ws r hwf hf ht
  · intro hspan
    cases sel with
    | mk rs pi =>
      have hmap : rs.map (expandRange root ws) = rs := by
        have hcg : rs.map (expandRange root ws) = rs.map id :=
          List.map_congr_left
            (fun r hr => expandRange_rootSpan root ws r hwf (hspan r hr).1 (hspan r hr).2)
        rw [hcg, List.map_id]
      show Selection.mk (rs.map (expandRange root ws)) pi = Selection.mk rs pi
      rw [hmap]

/-- Witness for C4 at the concrete example: one expansion step from `a`
(span containment), and a root-spanning range is a fixed point. -/
theorem C4_expand_monotone_witness :
    List.Forall₂ spanContains
      (((expand_selection exRoot exWs)^[0] (⟨[⟨4, 5⟩], 0⟩ : Selection)).ranges)
      (((expand_selection exRoot exWs)^[0 + 1] (⟨[⟨4, 5⟩], 0⟩ : Selection)).ranges) ∧
    expand_selection exRoot exWs ⟨[⟨0, 12⟩], 0⟩ = ⟨[⟨0, 12⟩], 0⟩ :=
  ⟨(C4_expand_monotone exRoot exWs ⟨[⟨4, 5⟩], 0⟩ (by decide) (by decide)
      (by decide)).1 0,
   (C4_expand_monotone exRoot exWs ⟨[⟨0, 12⟩], 0⟩ (by decide) (by decide)
      (by decide)).2.2 (by decide)⟩

end Helix
